import Mathlib

/-!
Verification of the register-access protocol and generation helpers of the
svd2rust code generator.

Shallow embedding conventions:
* machine words of width `w` are natural numbers; the bitwise complement `!x`
  of a `w`-bit word is `(2 ^ w - 1) ^^^ x`;
* the volatile cell of a register is a natural number together with an explicit
  trace of the memory operations a protocol call performs;
* strings are lists of Unicode code points (`Str := List Nat`);
* fallible code returns `Option`/`Except` (`none` models a panic).
-/

namespace Svd2Rust

/-! ## generate/generic.rs : raw words, masks, readers and writers -/

/-- Bitwise complement of `x` within a `w`-bit word (Rust `!x` on `uN`). -/
def rustNot (w x : Nat) : Nat := (2 ^ w - 1) ^^^ x

/-- `raw_reg!` mask: `<$U>::MAX >> ($size - WI)` for register width `w`. -/
def mask (w WI : Nat) : Nat := (2 ^ w - 1) >>> (w - WI)

/-- Constants a generated register spec carries (`RegisterSpec`, `Writable`,
`Resettable` from generate/generic.rs). -/
structure RegSpec where
  width : Nat
  RESET_VALUE : Nat
  ZERO_TO_MODIFY_FIELDS_BITMAP : Nat
  ONE_TO_MODIFY_FIELDS_BITMAP : Nat

/-- Register writer `W`/`WRaw`: the working word passed to `write`/`modify`
closures. -/
structure WRaw where
  bits : Nat

def WRaw.new (bits : Nat) : WRaw := ⟨bits⟩

/-- Register reader `R`/`RRaw`. -/
structure RRaw where
  bits : Nat

def RRaw.new (bits : Nat) : RRaw := ⟨bits⟩

/-- One volatile memory operation on the register cell. -/
inductive MemOp where
  | load (v : Nat)
  | store (v : Nat)
deriving DecidableEq

/-- Result of a register protocol call: the new cell value, the trace of
memory operations performed (in order), and the returned writer. -/
structure RegOpResult where
  mem : Nat
  trace : List MemOp
  ret : WRaw

/-- `Reg::write` (generate/generic.rs): seeds the writer with
`RESET_VALUE & !ONE_TO_MODIFY_FIELDS_BITMAP | ZERO_TO_MODIFY_FIELDS_BITMAP`,
then stores the word the closure returns. -/
def Reg.write (rs : RegSpec) (f : WRaw → WRaw) (_mem : Nat) : RegOpResult :=
  let w := f (WRaw.new
    ((rs.RESET_VALUE &&& rustNot rs.width rs.ONE_TO_MODIFY_FIELDS_BITMAP)
      ||| rs.ZERO_TO_MODIFY_FIELDS_BITMAP))
  ⟨w.bits, [MemOp.store w.bits], w⟩

/-- `Reg::modify` (generate/generic.rs): one load producing `bits`, the writer
seeded with `bits & !ONE_TO_MODIFY_FIELDS_BITMAP | ZERO_TO_MODIFY_FIELDS_BITMAP`,
then one store of the word the closure returns. -/
def Reg.modify (rs : RegSpec) (f : RRaw → WRaw → WRaw) (mem : Nat) : RegOpResult :=
  let bits := mem
  let w := f (RRaw.new bits) (WRaw.new
    ((bits &&& rustNot rs.width rs.ONE_TO_MODIFY_FIELDS_BITMAP)
      ||| rs.ZERO_TO_MODIFY_FIELDS_BITMAP))
  ⟨w.bits, [MemOp.load bits, MemOp.store w.bits], w⟩

/-- The baseline `write` seeds its writer with, per the spec's formula. -/
def writeBaseline (rs : RegSpec) : Nat :=
  (rs.RESET_VALUE &&& rustNot rs.width rs.ONE_TO_MODIFY_FIELDS_BITMAP)
    ||| rs.ZERO_TO_MODIFY_FIELDS_BITMAP

/-- The baseline `modify` seeds its writer with, from the freshly read word. -/
def modifyBaseline (rs : RegSpec) (current : Nat) : Nat :=
  (current &&& rustNot rs.width rs.ONE_TO_MODIFY_FIELDS_BITMAP)
    ||| rs.ZERO_TO_MODIFY_FIELDS_BITMAP

/-- `FieldWriter::bits` (unchecked, unsafe form): splices `value` into the
working word at offset `OF` with the width-`WI` mask. -/
def FieldWriter.bits (w WI OF : Nat) (self : WRaw) (value : Nat) : WRaw :=
  WRaw.new ((self.bits &&& rustNot w (mask w WI <<< OF))
    ||| ((value &&& mask w WI) <<< OF))

/-- `FieldWriterSafe::bits` (checked, safe form): identical splice. -/
def FieldWriterSafe.bits (w WI OF : Nat) (self : WRaw) (value : Nat) : WRaw :=
  WRaw.new ((self.bits &&& rustNot w (mask w WI <<< OF))
    ||| ((value &&& mask w WI) <<< OF))

/-- The splice formula as the spec words it, with the low-bits mask written
`(1 << WI) - 1`. -/
def specSplice (w WI OF working value : Nat) : Nat :=
  (working &&& rustNot w (((1 <<< WI) - 1) <<< OF))
    ||| ((value &&& ((1 <<< WI) - 1)) <<< OF)

/-! ### Mask arithmetic -/

lemma two_pow_sub_one_shiftRight (w k : Nat) (hk : k ≤ w) :
    (2 ^ w - 1) >>> k = 2 ^ (w - k) - 1 := by
  rw [Nat.shiftRight_eq_div_pow]
  have hkpos : 0 < (2 : Nat) ^ k := Nat.pos_pow_of_pos k (by norm_num)
  have hwpos : 0 < (2 : Nat) ^ (w - k) := Nat.pos_pow_of_pos (w - k) (by norm_num)
  have hsplit : (2 : Nat) ^ k * 2 ^ (w - k) = 2 ^ w := by
    rw [← pow_add]; congr 1; omega
  have hmul : (2 : Nat) ^ k * (2 ^ (w - k) - 1) = 2 ^ w - 2 ^ k := by
    rw [Nat.mul_sub, mul_one, hsplit]
  have hle : (2 : Nat) ^ k ≤ 2 ^ w := Nat.pow_le_pow_right (by norm_num) hk
  have hdecomp : 2 ^ w - 1 = (2 ^ k - 1) + 2 ^ k * (2 ^ (w - k) - 1) := by
    rw [hmul]; omega
  rw [hdecomp, Nat.add_mul_div_left _ _ hkpos, Nat.div_eq_of_lt (by omega)]
  omega

lemma mask_eq_low_bits (w WI : Nat) (h : WI ≤ w) :
    mask w WI = (1 <<< WI) - 1 := by
  unfold mask
  rw [two_pow_sub_one_shiftRight w (w - WI) (by omega), Nat.shiftLeft_eq, one_mul]
  congr 2
  omega

/-! ### Claims C1-C4 -/

/-- C1: for every Writable+Resettable register, `write(f)` seeds the writer
passed to `f` with `(RESET_VALUE & !ONE_TO_MODIFY_FIELDS_BITMAP) |
ZERO_TO_MODIFY_FIELDS_BITMAP` and performs exactly one memory operation, a
store of the word `f` returns (which also becomes the cell value); with
`RESET_VALUE = 0xA5`, `ONE_TO_MODIFY = 0x0F`, `ZERO_TO_MODIFY = 0x00` on an
8-bit register the seeded baseline is `0xA0`. -/
theorem write_seeds_baseline_and_stores_once :
    ∀ (rs : RegSpec) (f : WRaw → WRaw) (mem : Nat),
      (Reg.write rs f mem).trace = [MemOp.store (f (WRaw.new (writeBaseline rs))).bits] ∧
      (Reg.write rs f mem).mem = (f (WRaw.new (writeBaseline rs))).bits ∧
      writeBaseline ⟨8, 0xA5, 0x00, 0x0F⟩ = 0xA0 := by
  intro rs f mem
  refine ⟨rfl, rfl, by decide⟩

/-- C2: for every Readable+Writable register, `modify(f)` performs exactly one
load yielding `current`, passes `f` a reader holding `current` and a writer
seeded with `(current & !ONE_TO_MODIFY_FIELDS_BITMAP) |
ZERO_TO_MODIFY_FIELDS_BITMAP`, then performs exactly one store of the word `f`
returns; with `current = 0x3C`, `ONE_TO_MODIFY = 0x0F`, `ZERO_TO_MODIFY = 0x00`
the seeded baseline is `0x30`. -/
theorem modify_loads_once_seeds_baseline_stores_once :
    ∀ (rs : RegSpec) (f : RRaw → WRaw → WRaw) (mem : Nat),
      (Reg.modify rs f mem).trace =
        [MemOp.load mem,
         MemOp.store (f (RRaw.new mem) (WRaw.new (modifyBaseline rs mem))).bits] ∧
      (Reg.modify rs f mem).mem =
        (f (RRaw.new mem) (WRaw.new (modifyBaseline rs mem))).bits ∧
      modifyBaseline ⟨8, 0xA5, 0x00, 0x0F⟩ 0x3C = 0x30 := by
  intro rs f mem
  refine ⟨rfl, rfl, by decide⟩

/-- C3: for every field writer of width `WI` at offset `OF` with
`OF + WI ≤ w`, writing a value updates the working word by the exact splice
formula `(working & !(mask WI <<< OF)) ||| ((value & mask WI) <<< OF)` with
`mask WI = (1 <<< WI) - 1`, in both the unchecked (`FieldWriter::bits`) and
the checked (`FieldWriterSafe::bits`) forms. -/
theorem field_writer_splice (w WI OF : Nat) (self : WRaw) (value : Nat)
    (h : OF + WI ≤ w) :
    (FieldWriter.bits w WI OF self value).bits = specSplice w WI OF self.bits value ∧
    (FieldWriterSafe.bits w WI OF self value).bits = specSplice w WI OF self.bits value := by
  have hm : mask w WI = (1 <<< WI) - 1 := mask_eq_low_bits w WI (by omega)
  constructor <;> simp [FieldWriter.bits, FieldWriterSafe.bits, specSplice, hm, WRaw.new]

/-- Witness for C3 at `w = 8`, `WI = 4`, `OF = 2`, working word `0xA5`,
value `0x0B`. -/
theorem field_writer_splice_witness :
    2 + 4 ≤ 8 ∧
    (FieldWriter.bits 8 4 2 (WRaw.new 0xA5) 0x0B).bits = specSplice 8 4 2 0xA5 0x0B := by
  refine ⟨by decide, ?_⟩
  exact (field_writer_splice 8 4 2 (WRaw.new 0xA5) 0x0B (by decide)).1

/-- C4: for every register width `w ∈ {8,16,32,64}` and field width `WI` with
`1 ≤ WI ≤ w`, the mask computed as `MAX >> (w - WI)` equals `(1 <<< WI) - 1`
(which fits in `w` bits), the low-`WI`-bits mask, and is the all-ones word
`2 ^ w - 1` when `WI = w`. -/
theorem raw_reg_mask_eq_low_bits (w WI : Nat)
    (hw : w = 8 ∨ w = 16 ∨ w = 32 ∨ w = 64) (_h1 : 1 ≤ WI) (h2 : WI ≤ w) :
    mask w WI = (1 <<< WI) - 1 ∧ (WI = w → mask w WI = 2 ^ w - 1) := by
  refine ⟨mask_eq_low_bits w WI h2, ?_⟩
  intro hww
  subst hww
  rw [mask_eq_low_bits WI WI le_rfl, Nat.shiftLeft_eq, one_mul]

/-- Witness for C4 at `w = 8`, `WI = 8`: the mask is the all-ones byte. -/
theorem raw_reg_mask_eq_low_bits_witness :
    mask 8 8 = (1 <<< 8) - 1 ∧ (8 = 8 → mask 8 8 = 2 ^ 8 - 1) :=
  raw_reg_mask_eq_low_bits 8 8 (by decide) (by decide) (by decide)

/-! ## util.rs : name sanitization

Strings are modelled as lists of Unicode code points. -/

/-- A string, as its list of code points. -/
abbrev Str := List Nat

/-- ASCII lowercase letter. -/
def isLowerCh (c : Nat) : Bool := decide (97 ≤ c ∧ c ≤ 122)

/-- ASCII uppercase letter. -/
def isUpperCh (c : Nat) : Bool := decide (65 ≤ c ∧ c ≤ 90)

/-- ASCII decimal digit (`is_ascii_digit`). -/
def isDigitCh (c : Nat) : Bool := decide (48 ≤ c ∧ c ≤ 57)

/-- Word delimiter for case conversion: underscore, hyphen or space. -/
def isDelimCh (c : Nat) : Bool := decide (c = 95 ∨ c = 45 ∨ c = 32)

/-- `BLACKLIST_CHARS` of util.rs: parentheses, brackets, slash, space, hyphen. -/
def isBlacklistCh (c : Nat) : Bool :=
  decide (c = 40 ∨ c = 41 ∨ c = 91 ∨ c = 93 ∨ c = 47 ∨ c = 32 ∨ c = 45)

/-- ASCII uppercasing of one code point. -/
def toUpperCh (c : Nat) : Nat := if isLowerCh c then c - 32 else c

/-- ASCII lowercasing of one code point. -/
def toLowerCh (c : Nat) : Nat := if isUpperCh c then c + 32 else c

/-- Split a string into the chunks between delimiter characters (chunks may be
empty). -/
def splitDelim : Str → List Str
  | [] => [[]]
  | c :: rest =>
    let r := splitDelim rest
    if isDelimCh c then [] :: r
    else
      match r with
      | [] => [[c]]
      | w :: ws => (c :: w) :: ws

/-- Split a chunk at every lowercase-to-uppercase boundary. -/
def caseSplit : Str → List Str
  | [] => []
  | [c] => [[c]]
  | c1 :: c2 :: rest =>
    let r := caseSplit (c2 :: rest)
    if isLowerCh c1 && isUpperCh c2 then [c1] :: r
    else
      match r with
      | [] => [[c1]]
      | w :: ws => (c1 :: w) :: ws

/-- The words of a string: delimiter chunks further split at case boundaries
(empty chunks vanish). -/
def words (s : Str) : List Str := ((splitDelim s).map caseSplit).flatten

/-- Join words with a separator string. -/
def joinSep (sep : Str) : List Str → Str
  | [] => []
  | [w] => w
  | w :: ws => w ++ sep ++ joinSep sep ws

def upperWord (w : Str) : Str := w.map toUpperCh

def lowerWord (w : Str) : Str := w.map toLowerCh

/-- Capitalize one word: uppercase its first code point, lowercase the rest. -/
def capitalize : Str → Str
  | [] => []
  | c :: rest => toUpperCh c :: rest.map toLowerCh

/-- The case rules of util.rs (`Case`). -/
inductive Case where
  | Constant
  | Upper
  | Pascal
  | Snake
  | Unchanged
deriving DecidableEq

/-- Modelled from the spec: the case conversion supplied by the external
`convert_case` crate (not part of this repository), as §4.1 describes it -
Constant is UPPER_SNAKE, Upper is all-uppercase, Pascal capitalizes each word,
Snake is lower_snake; words are the delimiter-free runs split at
lowercase-to-uppercase boundaries. -/
def convertCase : Case → Str → Str
  | .Constant, s => joinSep [95] ((words s).map upperWord)
  | .Upper, s => joinSep [] ((words s).map upperWord)
  | .Pascal, s => joinSep [] ((words s).map capitalize)
  | .Snake, s => joinSep [95] ((words s).map lowerWord)
  | .Unchanged, s => s

/-- Character admissible in a CONSTANT_CASE string: no lowercase letter, no
hyphen, no space (underscore allowed). -/
def constantOkCh (c : Nat) : Bool := !isLowerCh c && !(c == 45) && !(c == 32)

/-- Character admissible in an UPPERCASE string: no lowercase letter and no
delimiter. -/
def upperOkCh (c : Nat) : Bool := !isLowerCh c && !isDelimCh c

/-- Character admissible in a snake_case string: no uppercase letter, no
hyphen, no space (underscore allowed). -/
def snakeOkCh (c : Nat) : Bool := !isUpperCh c && !(c == 45) && !(c == 32)

/-- Character admissible in a PascalCase string: no delimiter. -/
def pascalOkCh (c : Nat) : Bool := !isDelimCh c

/-- Modelled from the spec: `is_case` of the external `convert_case` crate -
whether a string already is in the target case. -/
def isCase : Case → Str → Bool
  | .Constant, s => s.all constantOkCh
  | .Upper, s => s.all upperOkCh
  | .Pascal, s =>
    s.all pascalOkCh &&
      (match s with
       | [] => true
       | c :: _ => !isLowerCh c)
  | .Snake, s => s.all snakeOkCh
  | .Unchanged, _ => true

/-- `Case::to_case` of util.rs: leave the string untouched when it already is
in the target case, otherwise convert it. -/
def Case.toCase (c : Case) (s : Str) : Str :=
  match c with
  | .Unchanged => s
  | _ => if isCase c s then s else convertCase c s

/-! ### Character-level lemmas -/

lemma isLowerCh_toUpperCh (c : Nat) : isLowerCh (toUpperCh c) = false := by
  unfold toUpperCh
  split_ifs with hl
  · simp only [isLowerCh, decide_eq_true_eq] at hl
    simp only [isLowerCh, decide_eq_false_iff_not]
    omega
  · simpa using hl

lemma isUpperCh_toLowerCh (c : Nat) : isUpperCh (toLowerCh c) = false := by
  unfold toLowerCh
  split_ifs with hu
  · simp only [isUpperCh, decide_eq_true_eq] at hu
    simp only [isUpperCh, decide_eq_false_iff_not]
    omega
  · simpa using hu

lemma isDelimCh_toUpperCh (c : Nat) (h : isDelimCh c = false) :
    isDelimCh (toUpperCh c) = false := by
  unfold toUpperCh
  split_ifs with hl
  · simp only [isLowerCh, decide_eq_true_eq] at hl
    simp only [isDelimCh, decide_eq_false_iff_not]
    omega
  · exact h

lemma isDelimCh_toLowerCh (c : Nat) (h : isDelimCh c = false) :
    isDelimCh (toLowerCh c) = false := by
  unfold toLowerCh
  split_ifs with hu
  · simp only [isUpperCh, decide_eq_true_eq] at hu
    simp only [isDelimCh, decide_eq_false_iff_not]
    omega
  · exact h

lemma constantOkCh_toUpperCh (c : Nat) (h : isDelimCh c = false) :
    constantOkCh (toUpperCh c) = true := by
  have h1 := isLowerCh_toUpperCh c
  have h2 := isDelimCh_toUpperCh c h
  simp only [isDelimCh, decide_eq_false_iff_not] at h2
  simp only [constantOkCh, h1, Bool.not_false, Bool.true_and, Bool.and_eq_true,
    Bool.not_eq_true', beq_eq_false_iff_ne]
  omega

lemma upperOkCh_toUpperCh (c : Nat) (h : isDelimCh c = false) :
    upperOkCh (toUpperCh c) = true := by
  simp only [upperOkCh, isLowerCh_toUpperCh c, isDelimCh_toUpperCh c h,
    Bool.not_false, Bool.and_self]

lemma snakeOkCh_toLowerCh (c : Nat) (h : isDelimCh c = false) :
    snakeOkCh (toLowerCh c) = true := by
  have h1 := isUpperCh_toLowerCh c
  have h2 := isDelimCh_toLowerCh c h
  simp only [isDelimCh, decide_eq_false_iff_not] at h2
  simp only [snakeOkCh, h1, Bool.not_false, Bool.true_and, Bool.and_eq_true,
    Bool.not_eq_true', beq_eq_false_iff_ne]
  omega

/-! ### Word-structure lemmas -/

lemma mem_joinSep {ch : Nat} {sep : Str} :
    ∀ {ws : List Str}, ch ∈ joinSep sep ws → ch ∈ sep ∨ ∃ w, w ∈ ws ∧ ch ∈ w := by
  intro ws
  induction ws with
  | nil => intro h; simp [joinSep] at h
  | cons w ws' ih =>
    intro h
    cases ws' with
    | nil =>
      right
      exact ⟨w, List.mem_cons_self w [], by simpa [joinSep] using h⟩
    | cons x xs =>
      simp only [joinSep] at h
      rcases List.mem_append.mp h with h1 | h2
      · rcases List.mem_append.mp h1 with ha | hb
        · right; exact ⟨w, List.mem_cons_self w (x :: xs), ha⟩
        · left; exact hb
      · rcases ih h2 with hs | ⟨w', hw', hch⟩
        · left; exact hs
        · right; exact ⟨w', List.mem_cons_of_mem w hw', hch⟩

lemma splitDelim_no_delim :
    ∀ (s : Str), ∀ w ∈ splitDelim s, ∀ ch ∈ w, isDelimCh ch = false := by
  intro s
  induction s with
  | nil =>
    intro w hw ch hch
    simp only [splitDelim, List.mem_singleton] at hw
    subst hw
    simp at hch
  | cons c rest ih =>
    intro w hw ch hch
    simp only [splitDelim] at hw
    by_cases hc : isDelimCh c = true
    · rw [if_pos hc] at hw
      rcases List.mem_cons.mp hw with rfl | hw'
      · simp at hch
      · exact ih w hw' ch hch
    · rw [if_neg hc] at hw
      have hcf : isDelimCh c = false := by simpa using hc
      rcases hr : splitDelim rest with _ | ⟨w0, ws0⟩
      · rw [hr] at hw
        simp only [List.mem_singleton] at hw
        subst hw
        simp only [List.mem_singleton] at hch
        subst hch
        exact hcf
      · rw [hr] at hw
        rcases List.mem_cons.mp hw with rfl | hw'
        · rcases List.mem_cons.mp hch with rfl | hch'
          · exact hcf
          · exact ih w0 (by rw [hr]; exact List.mem_cons_self w0 ws0) ch hch'
        · exact ih w (by rw [hr]; exact List.mem_cons_of_mem w0 hw') ch hch

lemma caseSplit_sub :
    ∀ (w : Str), ∀ w' ∈ caseSplit w, ∀ ch ∈ w', ch ∈ w := by
  intro w
  induction w with
  | nil => intro w' hw'; simp [caseSplit] at hw'
  | cons c1 rest ih =>
    cases rest with
    | nil =>
      intro w' hw' ch hch
      simp only [caseSplit, List.mem_singleton] at hw'
      subst hw'
      simpa using hch
    | cons c2 rest2 =>
      intro w' hw' ch hch
      simp only [caseSplit] at hw'
      by_cases hb : (isLowerCh c1 && isUpperCh c2) = true
      · rw [if_pos hb] at hw'
        rcases List.mem_cons.mp hw' with rfl | hw2
        · simp only [List.mem_singleton] at hch
          subst hch
          exact List.mem_cons_self ch (c2 :: rest2)
        · exact List.mem_cons_of_mem c1 (ih w' hw2 ch hch)
      · rw [if_neg hb] at hw'
        rcases hr : caseSplit (c2 :: rest2) with _ | ⟨w0, ws0⟩
        · rw [hr] at hw'
          simp only [List.mem_singleton] at hw'
          subst hw'
          simp only [List.mem_singleton] at hch
          subst hch
          exact List.mem_cons_self ch (c2 :: rest2)
        · rw [hr] at hw'
          rcases List.mem_cons.mp hw' with rfl | hw2
          · rcases List.mem_cons.mp hch with rfl | hch'
            · exact List.mem_cons_self ch (c2 :: rest2)
            · have hmem : w0 ∈ caseSplit (c2 :: rest2) := by
                rw [hr]; exact List.mem_cons_self w0 ws0
              exact List.mem_cons_of_mem c1 (ih w0 hmem ch hch')
          · have hmem : w' ∈ caseSplit (c2 :: rest2) := by
              rw [hr]; exact List.mem_cons_of_mem w0 hw2
            exact List.mem_cons_of_mem c1 (ih w' hmem ch hch)

lemma caseSplit_ne_nil :
    ∀ (w : Str), ∀ w' ∈ caseSplit w, w' ≠ [] := by
  intro w
  induction w with
  | nil => intro w' hw'; simp [caseSplit] at hw'
  | cons c1 rest ih =>
    cases rest with
    | nil =>
      intro w' hw'
      simp only [caseSplit, List.mem_singleton] at hw'
      subst hw'
      simp
    | cons c2 rest2 =>
      intro w' hw'
      simp only [caseSplit] at hw'
      by_cases hb : (isLowerCh c1 && isUpperCh c2) = true
      · rw [if_pos hb] at hw'
        rcases List.mem_cons.mp hw' with rfl | hw2
        · simp
        · exact ih w' hw2
      · rw [if_neg hb] at hw'
        rcases hr : caseSplit (c2 :: rest2) with _ | ⟨w0, ws0⟩
        · rw [hr] at hw'
          simp only [List.mem_singleton] at hw'
          subst hw'
          simp
        · rw [hr] at hw'
          rcases List.mem_cons.mp hw' with rfl | hw2
          · simp
          · exact ih w' (by rw [hr]; exact List.mem_cons_of_mem w0 hw2)

lemma words_no_delim (s : Str) :
    ∀ w ∈ words s, ∀ ch ∈ w, isDelimCh ch = false := by
  intro w hw ch hch
  simp only [words] at hw
  rcases List.mem_flatten.mp hw with ⟨l, hl, hwl⟩
  rcases List.mem_map.mp hl with ⟨chunk, hchunk, rfl⟩
  exact splitDelim_no_delim s chunk hchunk ch (caseSplit_sub chunk w hwl ch hch)

lemma words_ne_nil (s : Str) : ∀ w ∈ words s, w ≠ [] := by
  intro w hw
  simp only [words] at hw
  rcases List.mem_flatten.mp hw with ⟨l, hl, hwl⟩
  rcases List.mem_map.mp hl with ⟨chunk, _, rfl⟩
  exact caseSplit_ne_nil chunk w hwl

/-! ### Stability of conversion output -/

lemma constant_stable (s : Str) :
    isCase Case.Constant (convertCase Case.Constant s) = true := by
  simp only [isCase, convertCase, List.all_eq_true]
  intro ch hch
  rcases mem_joinSep hch with hsep | ⟨w, hw, hchw⟩
  · simp only [List.mem_singleton] at hsep
    subst hsep
    decide
  · rcases List.mem_map.mp hw with ⟨w0, hw0, rfl⟩
    rcases List.mem_map.mp hchw with ⟨c0, hc0, rfl⟩
    exact constantOkCh_toUpperCh c0 (words_no_delim s w0 hw0 c0 hc0)

lemma upper_stable (s : Str) :
    isCase Case.Upper (convertCase Case.Upper s) = true := by
  simp only [isCase, convertCase, List.all_eq_true]
  intro ch hch
  rcases mem_joinSep hch with hsep | ⟨w, hw, hchw⟩
  · simp at hsep
  · rcases List.mem_map.mp hw with ⟨w0, hw0, rfl⟩
    rcases List.mem_map.mp hchw with ⟨c0, hc0, rfl⟩
    exact upperOkCh_toUpperCh c0 (words_no_delim s w0 hw0 c0 hc0)

lemma snake_stable (s : Str) :
    isCase Case.Snake (convertCase Case.Snake s) = true := by
  simp only [isCase, convertCase, List.all_eq_true]
  intro ch hch
  rcases mem_joinSep hch with hsep | ⟨w, hw, hchw⟩
  · simp only [List.mem_singleton] at hsep
    subst hsep
    decide
  · rcases List.mem_map.mp hw with ⟨w0, hw0, rfl⟩
    rcases List.mem_map.mp hchw with ⟨c0, hc0, rfl⟩
    exact snakeOkCh_toLowerCh c0 (words_no_delim s w0 hw0 c0 hc0)

lemma capitalize_mem {ch : Nat} {w : Str} (h : ch ∈ capitalize w) :
    (∃ c ∈ w, ch = toUpperCh c) ∨ (∃ c ∈ w, ch = toLowerCh c) := by
  cases w with
  | nil => simp [capitalize] at h
  | cons c0 t0 =>
    simp only [capitalize, List.mem_cons] at h
    rcases h with rfl | h
    · left; exact ⟨c0, List.mem_cons_self c0 t0, rfl⟩
    · rcases List.mem_map.mp h with ⟨c, hc, rfl⟩
      right; exact ⟨c, List.mem_cons_of_mem c0 hc, rfl⟩

lemma pascal_stable (s : Str) :
    isCase Case.Pascal (convertCase Case.Pascal s) = true := by
  simp only [isCase, convertCase, Bool.and_eq_true]
  constructor
  · simp only [List.all_eq_true]
    intro ch hch
    rcases mem_joinSep hch with hsep | ⟨w, hw, hchw⟩
    · simp at hsep
    · rcases List.mem_map.mp hw with ⟨w0, hw0, rfl⟩
      have hnd : ∀ c ∈ w0, isDelimCh c = false := words_no_delim s w0 hw0
      rcases capitalize_mem hchw with ⟨c, hc, rfl⟩ | ⟨c, hc, rfl⟩
      · simpa only [pascalOkCh, Bool.not_eq_true'] using isDelimCh_toUpperCh c (hnd c hc)
      · simpa only [pascalOkCh, Bool.not_eq_true'] using isDelimCh_toLowerCh c (hnd c hc)
  · rcases hws : words s with _ | ⟨w0, rest⟩
    · simp [hws, joinSep]
    · have hne := words_ne_nil s w0 (by rw [hws]; exact List.mem_cons_self w0 rest)
      rcases hw0 : w0 with _ | ⟨c0, t0⟩
      · exact absurd hw0 hne
      · cases rest with
        | nil => simp [joinSep, capitalize, isLowerCh_toUpperCh]
        | cons x xs => simp [joinSep, capitalize, isLowerCh_toUpperCh]

/-- C5: the case transform applied by sanitization (`Case::to_case`, with the
external conversion modelled from the spec) is idempotent for every case rule:
a string already in the target case is returned unchanged, and applying the
transform twice equals applying it once. -/
theorem case_transform_idempotent :
    ∀ (c : Case) (s : Str),
      (isCase c s = true → Case.toCase c s = s) ∧
      Case.toCase c (Case.toCase c s) = Case.toCase c s := by
  intro c s
  constructor
  · intro h
    cases c <;> simp [Case.toCase, h]
  · cases c
    case Unchanged => rfl
    case Constant =>
      by_cases h : isCase Case.Constant s = true
      · simp [Case.toCase, h]
      · simp only [Case.toCase]
        rw [if_neg h, if_pos (constant_stable s)]
    case Upper =>
      by_cases h : isCase Case.Upper s = true
      · simp [Case.toCase, h]
      · simp only [Case.toCase]
        rw [if_neg h, if_pos (upper_stable s)]
    case Pascal =>
      by_cases h : isCase Case.Pascal s = true
      · simp [Case.toCase, h]
      · simp only [Case.toCase]
        rw [if_neg h, if_pos (pascal_stable s)]
    case Snake =>
      by_cases h : isCase Case.Snake s = true
      · simp [Case.toCase, h]
      · simp only [Case.toCase]
        rw [if_neg h, if_pos (snake_stable s)]

/-- Witness for C5: the already-CONSTANT-case one-letter string `"A"` is left
unchanged by the Constant transform. -/
theorem case_transform_idempotent_witness :
    Case.toCase Case.Constant [65] = [65] :=
  (case_transform_idempotent Case.Constant [65]).1 (by decide)

/-! ### NameConfig::sanitize and ToSanitizedCase (util.rs) -/

/-- `std::borrow::Cow`: a borrowed or owned string. -/
inductive Cow where
  | borrowed (s : Str)
  | owned (s : Str)

def Cow.str : Cow → Str
  | .borrowed s => s
  | .owned s => s

/-- `Case::cow_to_case` of util.rs: converts only when the cow is not an
already-cased borrow. Note the source's `Upper` arm checks
`is_case(Case::Snake)` on the borrowed string. -/
def Case.cowToCase (c : Case) (cw : Cow) : Cow :=
  match c with
  | .Unchanged => cw
  | .Constant =>
    match cw with
    | .borrowed s => if isCase .Constant s then .borrowed s else .owned (convertCase .Constant s)
    | .owned s => .owned (convertCase .Constant s)
  | .Upper =>
    match cw with
    | .borrowed s => if isCase .Snake s then .borrowed s else .owned (convertCase .Upper s)
    | .owned s => .owned (convertCase .Upper s)
  | .Pascal =>
    match cw with
    | .borrowed s => if isCase .Pascal s then .borrowed s else .owned (convertCase .Pascal s)
    | .owned s => .owned (convertCase .Pascal s)
  | .Snake =>
    match cw with
    | .borrowed s => if isCase .Snake s then .borrowed s else .owned (convertCase .Snake s)
    | .owned s => .owned (convertCase .Snake s)

/-- The per-role naming rule (`NameConfig` of util.rs). -/
structure NameConfig where
  caseRule : Case
  prefixStr : Str
  suffixStr : Str

/-- `NameConfig::sanitize` of util.rs. The source evaluates `s.as_bytes()[0]`
whenever the configured prefix string is empty; on the empty string that
indexing is out of bounds and panics, modelled here as `none`. -/
def NameConfig.sanitize (cfg : NameConfig) (s : Str) : Option Str :=
  let cased := Case.toCase cfg.caseRule s
  if cfg.prefixStr = [] then
    match s with
    | [] => none
    | b :: _ =>
      if isDigitCh b then some ((95 :: cased) ++ cfg.suffixStr)
      else if cfg.suffixStr = [] then some cased
      else some (cased ++ cfg.suffixStr)
  else some (cfg.prefixStr ++ cased ++ cfg.suffixStr)

/-- `ToSanitizedCase::to_sanitized_pascal_case` for `str` (util.rs): strip the
blacklist characters (yielding an owned string when any were present), then
digit-escape or Pascal-case via `cow_to_case`. -/
def toSanitizedPascalCase (s : Str) : Str :=
  let cw : Cow :=
    if s.any isBlacklistCh then .owned (s.filter (fun c => !isBlacklistCh c))
    else .borrowed s
  match cw.str with
  | [] => (Case.cowToCase .Pascal cw).str
  | c :: _ =>
    if isDigitCh c then 95 :: Case.toCase .Pascal cw.str
    else (Case.cowToCase .Pascal cw).str

/-- C6 (refuted by the code): `NameConfig::sanitize` with the default (empty)
prefix indexes byte 0 of the input and therefore panics on the empty string
(modelled as `none`), and `to_sanitized_pascal_case` maps the empty string to
the empty string rather than a non-empty fallback. -/
theorem sanitize_empty_input_panics :
    NameConfig.sanitize ⟨Case.Constant, [], []⟩ [] = none ∧
    toSanitizedPascalCase [] = [] := by
  constructor
  · rfl
  · rfl

/-! ## util.rs : access_of -/

/-- `svd::Access`. -/
inductive Access where
  | ReadOnly
  | ReadWrite
  | ReadWriteOnce
  | WriteOnce
  | WriteOnly
deriving DecidableEq

/-- A field's relevant descriptor part: its optional access mode. -/
structure Field where
  access : Option Access
deriving DecidableEq

/-- Register properties: the optional explicit access mode. -/
structure RegisterProperties where
  access : Option Access

/-- `access_of` of util.rs: the explicit access if present, else derived from
the fields. -/
def access_of (properties : RegisterProperties) (fields : Option (List Field)) :
    Access :=
  match properties.access with
  | some a => a
  | none =>
    match fields with
    | some fields =>
      if fields.all (fun f => f.access == some Access.ReadOnly) then Access.ReadOnly
      else if fields.all (fun f => f.access == some Access.WriteOnce) then Access.WriteOnce
      else if fields.all (fun f => f.access == some Access.ReadWriteOnce) then
        Access.ReadWriteOnce
      else if fields.all (fun f =>
          f.access == some Access.WriteOnly || f.access == some Access.WriteOnce) then
        Access.WriteOnly
      else Access.ReadWrite
    | none => Access.ReadWrite

/-- C7 counterexample: a register with unspecified access whose fields are one
WriteOnly field and one WriteOnce field derives WriteOnly, not ReadWrite as
the claim states. -/
theorem access_of_mixed_write_counterexample :
    access_of ⟨none⟩ (some [⟨some Access.WriteOnly⟩, ⟨some Access.WriteOnce⟩]) =
      Access.WriteOnly ∧
    Access.WriteOnly ≠ Access.ReadWrite := by
  constructor
  · rfl
  · decide

/-- C7 (amended): for a register whose properties leave the access mode
unspecified, the derived access is the unanimous access of its fields - all
ReadOnly gives ReadOnly, else all WriteOnce gives WriteOnce, else all
ReadWriteOnce gives ReadWriteOnce, else all WriteOnly-or-WriteOnce gives
WriteOnly - and defaults to ReadWrite when the fields disagree beyond that. -/
theorem access_of_unanimous_fields :
    ∀ (fs : List Field),
      (fs.all (fun f => f.access == some Access.ReadOnly) = true →
        access_of ⟨none⟩ (some fs) = Access.ReadOnly) ∧
      (fs.all (fun f => f.access == some Access.ReadOnly) = false →
       fs.all (fun f => f.access == some Access.WriteOnce) = true →
        access_of ⟨none⟩ (some fs) = Access.WriteOnce) ∧
      (fs.all (fun f => f.access == some Access.ReadOnly) = false →
       fs.all (fun f => f.access == some Access.WriteOnce) = false →
       fs.all (fun f => f.access == some Access.ReadWriteOnce) = true →
        access_of ⟨none⟩ (some fs) = Access.ReadWriteOnce) ∧
      (fs.all (fun f => f.access == some Access.ReadOnly) = false →
       fs.all (fun f => f.access == some Access.WriteOnce) = false →
       fs.all (fun f => f.access == some Access.ReadWriteOnce) = false →
       fs.all (fun f =>
         f.access == some Access.WriteOnly || f.access == some Access.WriteOnce) = true →
        access_of ⟨none⟩ (some fs) = Access.WriteOnly) ∧
      (fs.all (fun f => f.access == some Access.ReadOnly) = false →
       fs.all (fun f => f.access == some Access.WriteOnce) = false →
       fs.all (fun f => f.access == some Access.ReadWriteOnce) = false →
       fs.all (fun f =>
         f.access == some Access.WriteOnly || f.access == some Access.WriteOnce) = false →
        access_of ⟨none⟩ (some fs) = Access.ReadWrite) := by
  intro fs
  refine ⟨?_, ?_, ?_, ?_, ?_⟩
  · intro h1; simp [access_of, h1]
  · intro h1 h2; simp [access_of, h1, h2]
  · intro h1 h2 h3; simp [access_of, h1, h2, h3]
  · intro h1 h2 h3 h4; simp [access_of, h1, h2, h3, h4]
  · intro h1 h2 h3 h4; simp [access_of, h1, h2, h3, h4]

/-- Witness for C7's amended theorem at the WriteOnly/WriteOnce mix. -/
theorem access_of_unanimous_fields_witness :
    access_of ⟨none⟩ (some [⟨some Access.WriteOnly⟩, ⟨some Access.WriteOnce⟩]) =
      Access.WriteOnly :=
  (access_of_unanimous_fields [⟨some Access.WriteOnly⟩, ⟨some Access.WriteOnce⟩]).2.2.2.1
    (by decide) (by decide) (by decide) (by decide)

/-! ## util.rs : width-to-type mapping (U32Ext) -/

/-- The integral representations `to_ty` can produce. -/
inductive IntTy where
  | bool
  | u8
  | u16
  | u32
  | u64
deriving DecidableEq

/-- `U32Ext::to_ty` of util.rs: map a bit width to a Rust integral type, or an
error carrying the offending width. -/
def to_ty (n : Nat) : Except Nat IntTy :=
  if n = 1 then .ok .bool
  else if 2 ≤ n ∧ n ≤ 8 then .ok .u8
  else if 9 ≤ n ∧ n ≤ 16 then .ok .u16
  else if 17 ≤ n ∧ n ≤ 32 then .ok .u32
  else if 33 ≤ n ∧ n ≤ 64 then .ok .u64
  else .error n

/-- `U32Ext::to_ty_width` of util.rs. -/
def to_ty_width (n : Nat) : Except Nat Nat :=
  if n = 1 then .ok 1
  else if 2 ≤ n ∧ n ≤ 8 then .ok 8
  else if 9 ≤ n ∧ n ≤ 16 then .ok 16
  else if 17 ≤ n ∧ n ≤ 32 then .ok 32
  else if 33 ≤ n ∧ n ≤ 64 then .ok 64
  else .error n

/-- Modelled from the spec: a width-mapping error is fatal for that item only,
generation of other items continues - each item of a generation pass is mapped
independently. -/
def mapItems (ws : List Nat) : List (Except Nat IntTy) := ws.map to_ty

/-- C8: mapping a bit width to an integral representation succeeds exactly for
widths in `{1, 2-8, 9-16, 17-32, 33-64}` (bool, u8, u16, u32, u64), errors
carrying the offending width on `0` and on widths above 64, and an erroneous
item leaves the mapping of every other item intact. -/
theorem width_mapping_partition :
    (∀ n : Nat,
      (n = 1 → to_ty n = .ok .bool ∧ to_ty_width n = .ok 1) ∧
      (2 ≤ n → n ≤ 8 → to_ty n = .ok .u8 ∧ to_ty_width n = .ok 8) ∧
      (9 ≤ n → n ≤ 16 → to_ty n = .ok .u16 ∧ to_ty_width n = .ok 16) ∧
      (17 ≤ n → n ≤ 32 → to_ty n = .ok .u32 ∧ to_ty_width n = .ok 32) ∧
      (33 ≤ n → n ≤ 64 → to_ty n = .ok .u64 ∧ to_ty_width n = .ok 64) ∧
      (n = 0 ∨ 64 < n → to_ty n = .error n ∧ to_ty_width n = .error n)) ∧
    (∀ (ws₁ : List Nat) (n : Nat) (ws₂ : List Nat),
      mapItems (ws₁ ++ n :: ws₂) = mapItems ws₁ ++ to_ty n :: mapItems ws₂) := by
  constructor
  · intro n
    refine ⟨?_, ?_, ?_, ?_, ?_, ?_⟩ <;>
      · intros
        constructor <;>
          · simp only [to_ty, to_ty_width]
            split_ifs <;> first | rfl | omega
  · intro ws₁ n ws₂
    simp [mapItems]

/-- Witness for C8 at width 7 (maps to u8) and width 65 (error). -/
theorem width_mapping_partition_witness :
    (to_ty 7 = .ok .u8 ∧ to_ty_width 7 = .ok 8) ∧
    (to_ty 65 = .error 65 ∧ to_ty_width 65 = .error 65) :=
  ⟨(width_mapping_partition.1 7).2.1 (by decide) (by decide),
   (width_mapping_partition.1 65).2.2.2.2.2 (by decide)⟩

/-! ## generate/peripheral/accessor.rs : accessor shapes -/

/-- Plain reference accessor (`RegAccessor`). -/
structure RegAccessor where
  doc : String
  name : String
  ty : String
  offset : Nat
deriving DecidableEq

/-- Pointer-computed raw accessor (`RawRegAccessor`). -/
structure RawRegAccessor where
  doc : String
  name : String
  ty : String
  offset : Nat
deriving DecidableEq

/-- Fixed array accessor (`ArrayAccessor`). -/
structure ArrayAccessor where
  doc : String
  name : String
  ty : String
  offset : Nat
  dim : Nat
  increment : Nat
deriving DecidableEq

/-- Raw computed array accessor (`RawArrayAccessor`). -/
structure RawArrayAccessor where
  doc : String
  name : String
  ty : String
  offset : Nat
  dim : Nat
  increment : Nat
deriving DecidableEq

/-- Array-element forwarder (`ArrayElemAccessor`). -/
structure ArrayElemAccessor where
  doc : String
  name : String
  ty : String
  basename : String
  i : Nat
deriving DecidableEq

/-- The five accessor shapes (`Accessor`). -/
inductive Accessor where
  | Reg (a : RegAccessor)
  | RawReg (a : RawRegAccessor)
  | Array (a : ArrayAccessor)
  | RawArray (a : RawArrayAccessor)
  | ArrayElem (a : ArrayElemAccessor)
deriving DecidableEq

/-- `Accessor::raw`: degrade a typed accessor to its raw counterpart; already
raw accessors and array-element forwarders are returned unchanged. -/
def Accessor.raw : Accessor → Accessor
  | .RawReg a => .RawReg a
  | .RawArray a => .RawArray a
  | .ArrayElem a => .ArrayElem a
  | .Reg a => .RawReg ⟨a.doc, a.name, a.ty, a.offset⟩
  | .Array a => .RawArray ⟨a.doc, a.name, a.ty, a.offset, a.dim, a.increment⟩

/-- `Accessor::raw_if`. -/
def Accessor.raw_if (a : Accessor) (flag : Bool) : Accessor :=
  if flag then a.raw else a

/-- C9: `raw_if(true)` is idempotent - applying it twice yields the same
accessor as applying it once - and `raw_if(false)` returns the accessor
unchanged. -/
theorem raw_if_idempotent :
    ∀ a : Accessor,
      (a.raw_if true).raw_if true = a.raw_if true ∧ a.raw_if false = a := by
  intro a
  constructor
  · cases a <;> rfl
  · rfl

/-- C10: `Accessor::raw` (hence `raw_if(true)`) is the identity on ArrayElem
accessors, while Reg becomes RawReg and Array becomes RawArray, each
preserving doc, name, ty, offset and, for arrays, dim and increment. -/
theorem raw_identity_on_array_elem :
    ∀ (e : ArrayElemAccessor) (r : RegAccessor) (ar : ArrayAccessor),
      (Accessor.ArrayElem e).raw = .ArrayElem e ∧
      (Accessor.ArrayElem e).raw_if true = .ArrayElem e ∧
      (Accessor.Reg r).raw = .RawReg ⟨r.doc, r.name, r.ty, r.offset⟩ ∧
      (Accessor.Array ar).raw =
        .RawArray ⟨ar.doc, ar.name, ar.ty, ar.offset, ar.dim, ar.increment⟩ := by
  intro e r ar
  exact ⟨rfl, rfl, rfl, rfl⟩

end Svd2Rust
